import Mathlib

/-!
Verification of `colly.py` against its specification.

Strings are modelled as `List Char`; Python string slicing `s[:X]` is
`List.take`, Python `set` is `Finset`, and fallible operations return
`Option`.  Every definition below is a direct translation of the
correspondingly named function of `src/colly.py`.
-/

namespace Colly

/-- Function `truncate_string(s, max_length)` from colly.py:
`s[:max_length] if len(s) > max_length else s`. -/
def truncate_string (s : List Char) (max_length : Nat) : List Char :=
  if s.length > max_length then s.take max_length else s

theorem truncate_string_eq_take (s : List Char) (n : Nat) :
    truncate_string s n = s.take n := by
  unfold truncate_string
  split
  · rfl
  · rename_i h
    exact (List.take_of_length_le (Nat.le_of_not_lt h)).symm

/-- Function `find_min_truncation_length(words, max_length)` from colly.py:
returns `None` on the empty set, otherwise scans candidate widths
`X = 1 .. min(max(len(w) for w in words), max_length)` in order and returns
the first `X` for which truncating every word to `X` characters produces as
many distinct strings as there are words. -/
def find_min_truncation_length (words : Finset (List Char)) (max_length : Nat) :
    Option Nat :=
  if words = ∅ then none
  else
    let max_possible_length := min (words.sup List.length) max_length
    (List.range' 1 max_possible_length).find?
      (fun X => (words.image (fun w => truncate_string w X)).card == words.card)

/-- The uniqueness test performed by the solver's loop body:
truncating every word of `words` to width `X` loses no word. -/
def truncates_injectively (words : Finset (List Char)) (X : Nat) : Prop :=
  (words.image (fun w => truncate_string w X)).card = words.card

instance (words : Finset (List Char)) (X : Nat) :
    Decidable (truncates_injectively words X) :=
  inferInstanceAs
    (Decidable ((words.image (fun w => truncate_string w X)).card = words.card))

theorem truncates_injectively_iff (words : Finset (List Char)) (X : Nat) :
    truncates_injectively words X ↔
      Set.InjOn (fun w : List Char => w.take X) ↑words := by
  unfold truncates_injectively
  have himg : words.image (fun w => truncate_string w X)
      = words.image (fun w => w.take X) :=
    Finset.image_congr (fun w _ => truncate_string_eq_take w X)
  rw [himg]
  exact Finset.card_image_iff

/-- List `find?` over `range' s n` returns the FIRST element satisfying the
predicate: every smaller candidate at or above the start fails. -/
theorem find?_range'_first {p : Nat → Bool} :
    ∀ (n s a : Nat), (List.range' s n).find? p = some a →
      p a = true ∧ ∀ y, s ≤ y → y < a → p y = false := by
  intro n
  induction n with
  | zero => intro s a h; simp [List.range'] at h
  | succ n ih =>
    intro s a h
    rw [List.range'_succ] at h
    by_cases hp : p s
    · rw [List.find?_cons_of_pos _ hp] at h
      injection h with h
      subst h
      exact ⟨hp, fun y hsy hya => absurd (Nat.lt_of_le_of_lt hsy hya) (lt_irrefl _)⟩
    · rw [List.find?_cons_of_neg _ hp] at h
      obtain ⟨hpa, hmin⟩ := ih (s + 1) a h
      refine ⟨hpa, fun y hsy hya => ?_⟩
      rcases Nat.eq_or_lt_of_le hsy with rfl | hlt
      · exact Bool.eq_false_iff.mpr hp
      · exact hmin y hlt hya

theorem not_injOn_exists {words : Finset (List Char)} {Y : Nat}
    (h : ¬ truncates_injectively words Y) :
    ∃ w1 ∈ words, ∃ w2 ∈ words, w1 ≠ w2 ∧ w1.take Y = w2.take Y := by
  rw [truncates_injectively_iff] at h
  simp only [Set.InjOn, not_forall] at h
  obtain ⟨w1, hw1, w2, hw2, heq, hne⟩ := h
  exact ⟨w1, hw1, w2, hw2, hne, heq⟩

/-- C1: if `find_min_truncation_length` returns a width `X`, then taking
length-`X` prefixes is injective over the word set, and `X` is minimal:
every width `1 ≤ Y < X` produces a collision between two distinct words. -/
theorem find_min_truncation_length_sound
    (words : Finset (List Char)) (max_length X : Nat)
    (h : find_min_truncation_length words max_length = some X) :
    (∀ w1 ∈ words, ∀ w2 ∈ words, w1.take X = w2.take X → w1 = w2) ∧
    (∀ Y, 1 ≤ Y → Y < X →
      ∃ w1 ∈ words, ∃ w2 ∈ words, w1 ≠ w2 ∧ w1.take Y = w2.take Y) := by
  unfold find_min_truncation_length at h
  split at h
  · exact absurd h (by simp)
  · obtain ⟨hX, hmin⟩ := find?_range'_first _ _ _ h
    constructor
    · have hinj : truncates_injectively words X := by
        have := of_decide_eq_true (by simpa using hX)
        exact this
      rw [truncates_injectively_iff] at hinj
      intro w1 h1 w2 h2 heq
      exact hinj (Finset.mem_coe.mpr h1) (Finset.mem_coe.mpr h2) heq
    · intro Y h1Y hYX
      have hfail := hmin Y h1Y hYX
      have : ¬ truncates_injectively words Y := by
        intro hc
        rw [show truncates_injectively words Y =
          ((words.image (fun w => truncate_string w Y)).card = words.card) from rfl] at hc
        simp [hc] at hfail
      exact not_injOn_exists this

/-- Witness for C1 at a concrete input: on `{"ab", "ac"}` with
`max_length = 80` the solver returns width 2, prefixes of length 2 are
injective, and width 1 collides. -/
theorem find_min_truncation_length_sound_witness :
    (∀ w1 ∈ ({['a','b'], ['a','c']} : Finset (List Char)),
      ∀ w2 ∈ ({['a','b'], ['a','c']} : Finset (List Char)),
        w1.take 2 = w2.take 2 → w1 = w2) ∧
    (∀ Y, 1 ≤ Y → Y < 2 →
      ∃ w1 ∈ ({['a','b'], ['a','c']} : Finset (List Char)),
        ∃ w2 ∈ ({['a','b'], ['a','c']} : Finset (List Char)),
          w1 ≠ w2 ∧ w1.take Y = w2.take Y) :=
  find_min_truncation_length_sound {['a','b'], ['a','c']} 80 2 (by decide)

/-- C2: when the solver scanned a non-empty word set and returned `None`,
every candidate width in `[1, min(longest word, max_length)]` collides. -/
theorem find_min_truncation_length_none_collision
    (words : Finset (List Char)) (max_length : Nat)
    (hne : words ≠ ∅)
    (h : find_min_truncation_length words max_length = none) :
    ∀ X, 1 ≤ X → X ≤ min (words.sup List.length) max_length →
      ∃ w1 ∈ words, ∃ w2 ∈ words, w1 ≠ w2 ∧ w1.take X = w2.take X := by
  unfold find_min_truncation_length at h
  split at h
  · exact absurd (by assumption) hne
  · intro X h1X hXle
    have hmem : X ∈ List.range' 1 (min (words.sup List.length) max_length) := by
      rw [List.mem_range'_1]
      exact ⟨h1X, by omega⟩
    have hfail := List.find?_eq_none.mp h X hmem
    have : ¬ truncates_injectively words X := by
      intro hc
      rw [show truncates_injectively words X =
        ((words.image (fun w => truncate_string w X)).card = words.card) from rfl] at hc
      simp [hc] at hfail
    exact not_injOn_exists this

/-- Witness for C2 at a concrete input: on `{"a", "ab"}` with `max_length = 1`
the solver returns `None`, and the single candidate width 1 collides. -/
theorem find_min_truncation_length_none_collision_witness :
    ∃ w1 ∈ ({['a'], ['a','b']} : Finset (List Char)),
      ∃ w2 ∈ ({['a'], ['a','b']} : Finset (List Char)),
        w1 ≠ w2 ∧ w1.take 1 = w2.take 1 :=
  find_min_truncation_length_none_collision {['a'], ['a','b']} 1
    (by decide) (by decide) 1 (by decide) (by decide)

theorem take_injOn_mono {S : Set (List Char)} {X Y : Nat} (hXY : X ≤ Y)
    (h : Set.InjOn (fun w : List Char => w.take X) S) :
    Set.InjOn (fun w : List Char => w.take Y) S := by
  intro a ha b hb heq
  apply h ha hb
  have ha' : a.take X = (a.take Y).take X := by
    rw [List.take_take, Nat.min_eq_left hXY]
  have hb' : b.take X = (b.take Y).take X := by
    rw [List.take_take, Nat.min_eq_left hXY]
  simp only at heq ⊢
  rw [ha', hb', heq]

/-- C3 counterexample: the claimed non-monotonicity witness cannot exist —
there is NO word set `W` and pair of widths `1 ≤ X < Y ≤ max word length`
such that truncation to `X` is injective while truncation to `Y` is not. -/
theorem truncation_nonmonotonicity_refuted :
    ¬ ∃ (W : Finset (List Char)) (X Y : Nat),
        1 ≤ X ∧ X < Y ∧ Y ≤ W.sup List.length ∧
        truncates_injectively W X ∧ ¬ truncates_injectively W Y := by
  rintro ⟨W, X, Y, _, hXY, _, hinjX, hninjY⟩
  apply hninjY
  rw [truncates_injectively_iff] at hinjX ⊢
  exact take_injOn_mono (Nat.le_of_lt hXY) hinjX

/-- C3 amended: prefix uniqueness IS monotonic in the truncation width — if
truncation to width `X` is injective over `W`, so is truncation to any
`Y ≥ X` (the linear scan therefore returns the minimal passing width, but a
larger width can never fail after a smaller one passed). -/
theorem truncates_injectively_monotone
    (W : Finset (List Char)) (X Y : Nat) (hXY : X ≤ Y)
    (h : truncates_injectively W X) : truncates_injectively W Y := by
  rw [truncates_injectively_iff] at h ⊢
  exact take_injOn_mono hXY h

/-- Witness for the amended C3: `{"ab", "ac"}` is injective at width 2,
hence also at width 3. -/
theorem truncates_injectively_monotone_witness :
    truncates_injectively {['a','b'], ['a','c']} 3 :=
  truncates_injectively_monotone {['a','b'], ['a','c']} 2 3
    (by decide) (by decide)

/-- C10: on a non-empty set of word tokens (word tokens are maximal `\w+`
runs, hence non-empty strings), with `max_length` at least the longest
word's length, the solver never returns `None`: it returns some width `X`
with `1 ≤ X ≤ ` longest word length. -/
theorem find_min_truncation_length_total
    (words : Finset (List Char)) (max_length : Nat)
    (hne : words ≠ ∅)
    (hword : ∀ w ∈ words, w ≠ ([] : List Char))
    (hml : words.sup List.length ≤ max_length) :
    ∃ X, find_min_truncation_length words max_length = some X ∧
      1 ≤ X ∧ X ≤ words.sup List.length := by
  set L := words.sup List.length with hL
  have hmin : min L max_length = L := Nat.min_eq_left hml
  obtain ⟨w, hw⟩ := Finset.nonempty_iff_ne_empty.mpr hne
  have hw1 : 1 ≤ w.length := by
    have := hword w hw
    cases w with
    | nil => exact absurd rfl this
    | cons c cs => simp
  have hL1 : 1 ≤ L := le_trans hw1 (Finset.le_sup (f := List.length) hw)
  have hpL : ((words.image (fun v => truncate_string v L)).card == words.card) = true := by
    have himg : words.image (fun v => truncate_string v L) = words := by
      have : ∀ v ∈ words, truncate_string v L = v := by
        intro v hv
        unfold truncate_string
        have hle : v.length ≤ L := Finset.le_sup (f := List.length) hv
        simp [Nat.not_lt.mpr hle]
      calc words.image (fun v => truncate_string v L)
          = words.image id := Finset.image_congr (fun v hv => this v hv)
        _ = words := Finset.image_id
    rw [himg]
    exact beq_self_eq_true _
  have hLmem : L ∈ List.range' 1 (min L max_length) := by
    rw [List.mem_range'_1, hmin]
    omega
  unfold find_min_truncation_length
  rw [if_neg hne]
  cases hfind : (List.range' 1 (min L max_length)).find?
      (fun X => (words.image (fun v => truncate_string v X)).card == words.card) with
  | none =>
    exact absurd hpL (by simpa using List.find?_eq_none.mp hfind L hLmem)
  | some X =>
    refine ⟨X, rfl, ?_, ?_⟩
    · have := List.mem_of_find?_eq_some hfind
      rw [List.mem_range'_1] at this
      exact this.1
    · have := List.mem_of_find?_eq_some hfind
      rw [List.mem_range'_1, hmin] at this
      omega

/-- Witness for C10: on `{"a"}` with `max_length = 1` the solver returns a
width in `[1, 1]`. -/
theorem find_min_truncation_length_total_witness :
    ∃ X, find_min_truncation_length {['a']} 1 = some X ∧
      1 ≤ X ∧ X ≤ Finset.sup {['a']} List.length :=
  find_min_truncation_length_total {['a']} 1 (by decide) (by decide) (by decide)

/-- Python regex `\w` on a character: alphanumeric or underscore.  (colly.py
relies on `re`'s Unicode `\w`; the ASCII core modelled here is the part the
claims exercise — none of the claims involve non-ASCII word characters.) -/
def isWordChar (c : Char) : Bool := c.isAlphanum || c == '_'

theorem length_dropWhile_cons_lt (p : Char → Bool) (c : Char) (rest : List Char)
    (h : p c = true) :
    ((c :: rest).dropWhile p).length < (c :: rest).length := by
  rw [List.dropWhile_cons, if_pos h]
  have hle : (List.dropWhile p rest).length ≤ rest.length :=
    (List.dropWhile_suffix p).sublist.length_le
  simp only [List.length_cons]
  omega

/-- Function `truncate_content(content, X)` from colly.py:
`re.sub(r'\w+', m -> truncate_string(m, X), content)` — each maximal run of
word characters is replaced by its truncation, every other character is
copied unchanged. -/
def truncate_content (content : List Char) (X : Nat) : List Char :=
  match content with
  | [] => []
  | c :: rest =>
    if h : isWordChar c then
      truncate_string ((c :: rest).takeWhile isWordChar) X
        ++ truncate_content ((c :: rest).dropWhile isWordChar) X
    else
      c :: truncate_content rest X
termination_by content.length
decreasing_by
  · exact length_dropWhile_cons_lt isWordChar c rest h
  · simp

/-- The maximal `\w+` runs of a string, in order: the word tokens the
`re.sub` in `truncate_content` (and `re.findall` in `get_unique_words`)
operates on. -/
def wordTokens (content : List Char) : List (List Char) :=
  match content with
  | [] => []
  | c :: rest =>
    if h : isWordChar c then
      ((c :: rest).takeWhile isWordChar) :: wordTokens ((c :: rest).dropWhile isWordChar)
    else
      wordTokens rest
termination_by content.length
decreasing_by
  · exact length_dropWhile_cons_lt isWordChar c rest h
  · simp

/-- The subsequence of non-word characters of a string — the part `re.sub`
leaves untouched. -/
def nonWordChars (content : List Char) : List Char :=
  content.filter (fun c => !isWordChar c)

theorem truncate_content_nil (X : Nat) : truncate_content [] X = [] := by
  unfold truncate_content; rfl

theorem truncate_content_cons_pos {c : Char} (rest : List Char) (X : Nat)
    (h : isWordChar c = true) :
    truncate_content (c :: rest) X =
      truncate_string ((c :: rest).takeWhile isWordChar) X
        ++ truncate_content ((c :: rest).dropWhile isWordChar) X := by
  conv_lhs => unfold truncate_content
  rw [dif_pos h]

theorem truncate_content_cons_neg {c : Char} (rest : List Char) (X : Nat)
    (h : isWordChar c = false) :
    truncate_content (c :: rest) X = c :: truncate_content rest X := by
  conv_lhs => unfold truncate_content
  rw [dif_neg (by simp [h])]

theorem wordTokens_nil : wordTokens [] = [] := by
  unfold wordTokens; rfl

theorem wordTokens_cons_pos {c : Char} (rest : List Char)
    (h : isWordChar c = true) :
    wordTokens (c :: rest) =
      ((c :: rest).takeWhile isWordChar)
        :: wordTokens ((c :: rest).dropWhile isWordChar) := by
  conv_lhs => unfold wordTokens
  rw [dif_pos h]

theorem wordTokens_cons_neg {c : Char} (rest : List Char)
    (h : isWordChar c = false) :
    wordTokens (c :: rest) = wordTokens rest := by
  conv_lhs => unfold wordTokens
  rw [dif_neg (by simp [h])]

theorem takeWhile_append_stop (p : Char → Bool) :
    ∀ (w rest : List Char), (∀ c ∈ w, p c = true) →
      (∀ r, rest.head? = some r → p r = false) →
      (w ++ rest).takeWhile p = w := by
  intro w
  induction w with
  | nil =>
    intro rest _ hr
    cases rest with
    | nil => rfl
    | cons r rs =>
      simp only [List.nil_append, List.takeWhile_cons, hr r rfl]
      simp
  | cons a as ih =>
    intro rest hw hr
    have ha : p a = true := hw a (List.mem_cons_self a as)
    simp only [List.cons_append, List.takeWhile_cons, ha, if_pos]
    rw [ih rest (fun c hc => hw c (List.mem_cons_of_mem a hc)) hr]

theorem dropWhile_append_stop (p : Char → Bool) :
    ∀ (w rest : List Char), (∀ c ∈ w, p c = true) →
      (∀ r, rest.head? = some r → p r = false) →
      (w ++ rest).dropWhile p = rest := by
  intro w
  induction w with
  | nil =>
    intro rest _ hr
    cases rest with
    | nil => rfl
    | cons r rs =>
      simp only [List.nil_append, List.dropWhile_cons, hr r rfl]
      simp
  | cons a as ih =>
    intro rest hw hr
    have ha : p a = true := hw a (List.mem_cons_self a as)
    simp only [List.cons_append, List.dropWhile_cons, ha, if_pos]
    exact ih rest (fun c hc => hw c (List.mem_cons_of_mem a hc)) hr

theorem head?_dropWhile (p : Char → Bool) :
    ∀ (l : List Char) (c : Char), (l.dropWhile p).head? = some c → p c = false := by
  intro l
  induction l with
  | nil => intro c h; simp at h
  | cons a as ih =>
    intro c h
    rw [List.dropWhile_cons] at h
    by_cases ha : p a
    · rw [if_pos ha] at h
      exact ih c h
    · rw [if_neg ha] at h
      simp only [List.head?_cons, Option.some.injEq] at h
      subst h
      exact Bool.eq_false_iff.mpr ha

/-- On a string shaped as (non-empty all-word run) ++ (rest starting with a
non-word character), `truncate_content` truncates the run and recurses. -/
theorem truncate_content_word_append (X : Nat) (w rest : List Char)
    (hw : ∀ c ∈ w, isWordChar c = true) (hne : w ≠ [])
    (hr : ∀ r, rest.head? = some r → isWordChar r = false) :
    truncate_content (w ++ rest) X
      = truncate_string w X ++ truncate_content rest X := by
  cases w with
  | nil => exact absurd rfl hne
  | cons c cs =>
    have hc : isWordChar c = true := hw c (List.mem_cons_self c cs)
    rw [List.cons_append, truncate_content_cons_pos _ _ hc,
      show c :: (cs ++ rest) = (c :: cs) ++ rest from rfl,
      takeWhile_append_stop isWordChar (c :: cs) rest hw hr,
      dropWhile_append_stop isWordChar (c :: cs) rest hw hr]

theorem wordTokens_word_append (w rest : List Char)
    (hw : ∀ c ∈ w, isWordChar c = true) (hne : w ≠ [])
    (hr : ∀ r, rest.head? = some r → isWordChar r = false) :
    wordTokens (w ++ rest) = w :: wordTokens rest := by
  cases w with
  | nil => exact absurd rfl hne
  | cons c cs =>
    have hc : isWordChar c = true := hw c (List.mem_cons_self c cs)
    rw [List.cons_append, wordTokens_cons_pos _ hc,
      show c :: (cs ++ rest) = (c :: cs) ++ rest from rfl,
      takeWhile_append_stop isWordChar (c :: cs) rest hw hr,
      dropWhile_append_stop isWordChar (c :: cs) rest hw hr]

theorem truncate_content_head_nonword (X : Nat) (rest : List Char)
    (hr : ∀ r, rest.head? = some r → isWordChar r = false) :
    ∀ r, (truncate_content rest X).head? = some r → isWordChar r = false := by
  intro r h
  cases rest with
  | nil => rw [truncate_content_nil] at h; simp at h
  | cons a as =>
    have ha : isWordChar a = false := hr a rfl
    rw [truncate_content_cons_neg _ _ ha] at h
    simp only [List.head?_cons, Option.some.injEq] at h
    subst h
    exact ha

theorem truncate_string_mem {c : Char} {w : List Char} {X : Nat}
    (h : c ∈ truncate_string w X) : c ∈ w := by
  rw [truncate_string_eq_take] at h
  exact List.take_subset X w h

theorem truncate_string_ne_nil {w : List Char} {X : Nat}
    (hne : w ≠ []) (hX : 1 ≤ X) : truncate_string w X ≠ [] := by
  rw [truncate_string_eq_take]
  cases w with
  | nil => exact absurd rfl hne
  | cons a as =>
    cases X with
    | zero => omega
    | succ k => simp [List.take_succ_cons]

theorem truncate_content_idem_aux (X : Nat) (hX : 1 ≤ X) :
    ∀ (n : Nat) (content : List Char), content.length ≤ n →
      truncate_content (truncate_content content X) X
        = truncate_content content X := by
  intro n
  induction n with
  | zero =>
    intro content hlen
    have hnil : content = [] := List.eq_nil_of_length_eq_zero (Nat.le_zero.mp hlen)
    subst hnil
    rw [truncate_content_nil, truncate_content_nil]
  | succ n ih =>
    intro content hlen
    cases content with
    | nil => rw [truncate_content_nil, truncate_content_nil]
    | cons c rest =>
      by_cases hc : isWordChar c
      · have hw_chars : ∀ a ∈ (c :: rest).takeWhile isWordChar, isWordChar a = true :=
          fun a ha => List.mem_takeWhile_imp ha
        have hw_ne : (c :: rest).takeWhile isWordChar ≠ [] := by
          simp [List.takeWhile_cons, hc]
        have hrem_head : ∀ r, ((c :: rest).dropWhile isWordChar).head? = some r →
            isWordChar r = false :=
          fun r hr => head?_dropWhile isWordChar (c :: rest) r hr
        have hrem_len : ((c :: rest).dropWhile isWordChar).length < (c :: rest).length :=
          length_dropWhile_cons_lt isWordChar c rest hc
        have hw'_chars : ∀ a ∈ truncate_string ((c :: rest).takeWhile isWordChar) X,
            isWordChar a = true :=
          fun a ha => hw_chars a (truncate_string_mem ha)
        have hw'_ne : truncate_string ((c :: rest).takeWhile isWordChar) X ≠ [] :=
          truncate_string_ne_nil hw_ne hX
        have hT_head := truncate_content_head_nonword X _ hrem_head
        rw [truncate_content_cons_pos rest X hc,
          truncate_content_word_append X _ _ hw'_chars hw'_ne hT_head,
          ih ((c :: rest).dropWhile isWordChar) (by simp at hlen hrem_len ⊢; omega)]
        congr 1
        simp only [truncate_string_eq_take, List.take_take, Nat.min_self]
      · have hcf : isWordChar c = false := by simpa using hc
        rw [truncate_content_cons_neg rest X hcf,
          truncate_content_cons_neg (truncate_content rest X) X hcf,
          ih rest (by simp at hlen; omega)]

/-- C7: truncation is idempotent — for every content and width `X ≥ 1`,
`truncate_content (truncate_content content X) X = truncate_content content X`. -/
theorem truncate_content_idempotent (content : List Char) (X : Nat) (hX : 1 ≤ X) :
    truncate_content (truncate_content content X) X
      = truncate_content content X :=
  truncate_content_idem_aux X hX content.length content (le_refl _)

/-- Witness for C7 at a concrete input. -/
theorem truncate_content_idempotent_witness :
    truncate_content (truncate_content ("hello world_42!".toList) 3) 3
      = truncate_content ("hello world_42!".toList) 3 :=
  truncate_content_idempotent ("hello world_42!".toList) 3 (by decide)

theorem truncate_content_structure_aux (X : Nat) (hX : 1 ≤ X) :
    ∀ (n : Nat) (content : List Char), content.length ≤ n →
      nonWordChars (truncate_content content X) = nonWordChars content ∧
      wordTokens (truncate_content content X)
        = (wordTokens content).map (fun w => w.take X) := by
  intro n
  induction n with
  | zero =>
    intro content hlen
    have hnil : content = [] := List.eq_nil_of_length_eq_zero (Nat.le_zero.mp hlen)
    subst hnil
    rw [truncate_content_nil]
    exact ⟨rfl, by rw [wordTokens_nil]; rfl⟩
  | succ n ih =>
    intro content hlen
    cases content with
    | nil =>
      rw [truncate_content_nil]
      exact ⟨rfl, by rw [wordTokens_nil]; rfl⟩
    | cons c rest =>
      by_cases hc : isWordChar c
      · have hw_chars : ∀ a ∈ (c :: rest).takeWhile isWordChar, isWordChar a = true :=
          fun a ha => List.mem_takeWhile_imp ha
        have hw_ne : (c :: rest).takeWhile isWordChar ≠ [] := by
          simp [List.takeWhile_cons, hc]
        have hrem_head : ∀ r, ((c :: rest).dropWhile isWordChar).head? = some r →
            isWordChar r = false :=
          fun r hr => head?_dropWhile isWordChar (c :: rest) r hr
        have hrem_len : ((c :: rest).dropWhile isWordChar).length < (c :: rest).length :=
          length_dropWhile_cons_lt isWordChar c rest hc
        have hw'_chars : ∀ a ∈ truncate_string ((c :: rest).takeWhile isWordChar) X,
            isWordChar a = true :=
          fun a ha => hw_chars a (truncate_string_mem ha)
        have hw'_ne : truncate_string ((c :: rest).takeWhile isWordChar) X ≠ [] :=
          truncate_string_ne_nil hw_ne hX
        have hT_head := truncate_content_head_nonword X _ hrem_head
        obtain ⟨ihn, iht⟩ := ih ((c :: rest).dropWhile isWordChar)
          (by simp at hlen hrem_len ⊢; omega)
        have hsplit : (c :: rest).takeWhile isWordChar ++ (c :: rest).dropWhile isWordChar
            = c :: rest := List.takeWhile_append_dropWhile isWordChar (c :: rest)
        constructor
        · have hLw' : List.filter (fun a => !isWordChar a)
              (truncate_string ((c :: rest).takeWhile isWordChar) X) = [] :=
            List.filter_eq_nil_iff.mpr (fun a ha => by simp [hw'_chars a ha])
          have hLw : List.filter (fun a => !isWordChar a)
              ((c :: rest).takeWhile isWordChar) = [] :=
            List.filter_eq_nil_iff.mpr (fun a ha => by simp [hw_chars a ha])
          rw [truncate_content_cons_pos rest X hc]
          unfold nonWordChars at ihn ⊢
          rw [List.filter_append, hLw', List.nil_append]
          conv_rhs => rw [← hsplit]
          rw [List.filter_append, hLw, List.nil_append]
          exact ihn
        · rw [truncate_content_cons_pos rest X hc,
            wordTokens_word_append _ _ hw'_chars hw'_ne hT_head,
            wordTokens_cons_pos rest hc, List.map_cons, iht,
            truncate_string_eq_take]
      · have hcf : isWordChar c = false := by simpa using hc
        obtain ⟨ihn, iht⟩ := ih rest (by simp at hlen; omega)
        constructor
        · rw [truncate_content_cons_neg rest X hcf]
          unfold nonWordChars
          rw [List.filter_cons, List.filter_cons]
          simp only [hcf]
          unfold nonWordChars at ihn
          rw [ihn]
        · rw [truncate_content_cons_neg rest X hcf,
            wordTokens_cons_neg _ hcf, wordTokens_cons_neg rest hcf]
          exact iht

/-- C8: `truncate_content` is a token-wise transform — for every content and
width `X ≥ 1` (truncation widths are positive, spec §3), the non-word
characters are untouched, the number of word tokens is preserved, and each
output token is the corresponding input token cut to its first `X`
characters. -/
theorem truncate_content_structure (content : List Char) (X : Nat) (hX : 1 ≤ X) :
    nonWordChars (truncate_content content X) = nonWordChars content ∧
    (wordTokens (truncate_content content X)).length = (wordTokens content).length ∧
    wordTokens (truncate_content content X)
      = (wordTokens content).map (fun w => w.take X) := by
  obtain ⟨hn, ht⟩ := truncate_content_structure_aux X hX content.length content (le_refl _)
  exact ⟨hn, by rw [ht, List.length_map], ht⟩

/-- Witness for C8 at a concrete input. -/
theorem truncate_content_structure_witness :
    nonWordChars (truncate_content ("foo bar-baz!".toList) 2)
        = nonWordChars ("foo bar-baz!".toList) ∧
    (wordTokens (truncate_content ("foo bar-baz!".toList) 2)).length
        = (wordTokens ("foo bar-baz!".toList)).length ∧
    wordTokens (truncate_content ("foo bar-baz!".toList) 2)
        = (wordTokens ("foo bar-baz!".toList)).map (fun w => w.take 2) :=
  truncate_content_structure ("foo bar-baz!".toList) 2 (by decide)

/-- Full-match semantics of an `fnmatch` glob, with explicit fuel so the
function is structurally recursive (each call shrinks `pattern.length +
s.length`, so `pattern.length + s.length + 1` fuel always suffices):
`*` matches any (possibly empty) character sequence, `?` matches exactly one
character, any other character matches itself.  Character classes `[...]`
occur in none of the claims and `[` is treated as a literal character. -/
def glob_match_fuel : Nat → List Char → List Char → Bool
  | 0, _, _ => false
  | _ + 1, [], s => s.isEmpty
  | fuel + 1, c :: ps, s =>
    if c = '*' then
      match s with
      | [] => glob_match_fuel fuel ps []
      | _ :: ss => glob_match_fuel fuel ps s || glob_match_fuel fuel (c :: ps) ss
    else
      match s with
      | [] => false
      | d :: ss => if c = '?' ∨ c = d then glob_match_fuel fuel ps ss else false

/-- Python `fnmatch` full-string matching of `s` against glob `pattern`. -/
def glob_match (pattern s : List Char) : Bool :=
  glob_match_fuel (pattern.length + s.length + 1) pattern s

theorem glob_match_fuel_nil (f : Nat) (s : List Char) :
    glob_match_fuel (f + 1) [] s = s.isEmpty := rfl

theorem glob_match_fuel_star_nil {c : Char} (f : Nat) (ps : List Char)
    (hc : c = '*') :
    glob_match_fuel (f + 1) (c :: ps) [] = glob_match_fuel f ps [] := by
  simp only [glob_match_fuel]
  rw [if_pos hc]

theorem glob_match_fuel_star_cons {c : Char} (f : Nat) (ps : List Char)
    (d : Char) (ss : List Char) (hc : c = '*') :
    glob_match_fuel (f + 1) (c :: ps) (d :: ss)
      = (glob_match_fuel f ps (d :: ss) || glob_match_fuel f (c :: ps) ss) := by
  simp only [glob_match_fuel]
  rw [if_pos hc]

theorem glob_match_fuel_lit_nil {c : Char} (f : Nat) (ps : List Char)
    (hc : c ≠ '*') :
    glob_match_fuel (f + 1) (c :: ps) [] = false := by
  simp only [glob_match_fuel]
  rw [if_neg hc]

theorem glob_match_fuel_lit_cons {c : Char} (f : Nat) (ps : List Char)
    (d : Char) (ss : List Char) (hc : c ≠ '*') :
    glob_match_fuel (f + 1) (c :: ps) (d :: ss)
      = if c = '?' ∨ c = d then glob_match_fuel f ps ss else false := by
  simp only [glob_match_fuel]
  rw [if_neg hc]

theorem glob_match_fuel_congr :
    ∀ (f1 f2 : Nat) (p s : List Char), p.length + s.length < f1 →
      p.length + s.length < f2 →
      glob_match_fuel f1 p s = glob_match_fuel f2 p s := by
  intro f1
  induction f1 with
  | zero => intro f2 p s h1 _; omega
  | succ f1 ih =>
    intro f2 p s h1 h2
    cases f2 with
    | zero => omega
    | succ f2 =>
      cases p with
      | nil => rfl
      | cons c ps =>
        by_cases hc : c = '*'
        · cases s with
          | nil =>
            rw [glob_match_fuel_star_nil f1 ps hc, glob_match_fuel_star_nil f2 ps hc]
            exact ih f2 ps [] (by simp at h1 ⊢; omega) (by simp at h2 ⊢; omega)
          | cons d ss =>
            rw [glob_match_fuel_star_cons f1 ps d ss hc,
              glob_match_fuel_star_cons f2 ps d ss hc,
              ih f2 ps (d :: ss) (by simp at h1 ⊢; omega) (by simp at h2 ⊢; omega),
              ih f2 (c :: ps) ss (by simp at h1 ⊢; omega) (by simp at h2 ⊢; omega)]
        · cases s with
          | nil =>
            rw [glob_match_fuel_lit_nil f1 ps hc, glob_match_fuel_lit_nil f2 ps hc]
          | cons d ss =>
            rw [glob_match_fuel_lit_cons f1 ps d ss hc,
              glob_match_fuel_lit_cons f2 ps d ss hc,
              ih f2 ps ss (by simp at h1 ⊢; omega) (by simp at h2 ⊢; omega)]

theorem glob_match_fuel_literal :
    ∀ (f : Nat) (p s : List Char), p.length + s.length < f →
      (∀ c ∈ p, c ≠ '*' ∧ c ≠ '?') →
      (glob_match_fuel f p s = true ↔ p = s) := by
  intro f
  induction f with
  | zero => intro p s h _; omega
  | succ f ih =>
    intro p s hlen hp
    cases p with
    | nil =>
      cases s with
      | nil => simp [glob_match_fuel]
      | cons d ss => simp [glob_match_fuel]
    | cons c ps =>
      have hc := hp c (List.mem_cons_self c ps)
      cases s with
      | nil =>
        rw [glob_match_fuel_lit_nil f ps hc.1]
        simp
      | cons d ss =>
        rw [glob_match_fuel_lit_cons f ps d ss hc.1]
        by_cases hcd : c = d
        · rw [if_pos (Or.inr hcd)]
          rw [ih ps ss (by simp at hlen ⊢; omega)
            (fun a ha => hp a (List.mem_cons_of_mem c ha))]
          subst hcd
          simp
        · rw [if_neg (by rintro (h | h); exact hc.2 h; exact hcd h)]
          simp [hcd]

theorem glob_match_literal (p s : List Char)
    (hp : ∀ c ∈ p, c ≠ '*' ∧ c ≠ '?') :
    (glob_match p s = true ↔ p = s) :=
  glob_match_fuel_literal (p.length + s.length + 1) p s (by omega) hp

/-- The search performed by `is_excluded(path, ...)` for one compiled
pattern.  `compile_exclusion_patterns` compiles each glob with
`re.compile(fnmatch.translate(pattern))`; `fnmatch.translate` anchors the
regex at the END of the string (it emits `(?s:...)\Z`), and `is_excluded`
applies `pattern.search(path)`, which tries every start position.  The
compiled pattern therefore matches iff the glob fully matches some SUFFIX
of the path. -/
def glob_search (pattern path : List Char) : Bool :=
  (List.range (path.length + 1)).any (fun i => glob_match pattern (path.drop i))

/-- Function `is_excluded(path, compile_exclusion_patterns(exclusions))` from
colly.py: true iff some exclusion pattern's compiled regex search hits. -/
def is_excluded (path : List Char) (exclusions : List (List Char)) : Bool :=
  exclusions.any (fun pattern => glob_search pattern path)

/-- C4 counterexample: the pattern `"build"` occurs as a substring of
`/project/build/file.py`, yet `is_excluded` returns `False` on that path —
matching is NOT a substring-anywhere search. -/
theorem is_excluded_not_substring_search :
    is_excluded ("/project/build/file.py".toList) ["build".toList] = false ∧
    ("build".toList) <:+: ("/project/build/file.py".toList) := by
  constructor
  · decide
  · exact ⟨"/project/".toList, "/file.py".toList, by decide⟩

/-- C4 amended: exclusion matching is a SUFFIX search — the compiled pattern
(end-anchored by `fnmatch.translate`, scanned by `re.search`) matches iff
the glob matches a suffix of the path; for a pattern with no wildcards,
`is_excluded` holds iff the pattern is literally a suffix of the path.  So
`"build"` excludes `/project/build` and `/a/build` (such directories are
pruned during walks), but not `/project/build/file.py`, `/a/build/b/c.txt`
or `/project/buildtools/file.py`. -/
theorem is_excluded_suffix_semantics :
    (∀ path pat : List Char, (∀ c ∈ pat, c ≠ '*' ∧ c ≠ '?') →
      (is_excluded path [pat] = true ↔ pat <:+ path)) ∧
    is_excluded ("/project/build".toList) ["build".toList] = true ∧
    is_excluded ("/a/build".toList) ["build".toList] = true ∧
    is_excluded ("/a/build/b/c.txt".toList) ["build".toList] = false ∧
    is_excluded ("/project/buildtools/file.py".toList) ["build".toList] = false := by
  refine ⟨?_, by decide, by decide, by decide, by decide⟩
  intro path pat hp
  unfold is_excluded glob_search
  simp only [List.any_cons, List.any_nil, Bool.or_false, List.any_eq_true,
    List.mem_range]
  constructor
  · rintro ⟨i, _, hm⟩
    rw [glob_match_literal pat (path.drop i) hp] at hm
    rw [hm]
    exact List.drop_suffix i path
  · rintro ⟨t, ht⟩
    refine ⟨t.length, ?_, ?_⟩
    · have : t.length ≤ path.length := by
        rw [← ht]; simp
      omega
    · rw [glob_match_literal pat (path.drop t.length) hp, ← ht,
        List.drop_left]

/-- Witness for the amended C4: `"build"` is a literal pattern, and it
excludes `/x/build` because it is a suffix of that path. -/
theorem is_excluded_suffix_semantics_witness :
    is_excluded ("/x/build".toList) ["build".toList] = true :=
  (is_excluded_suffix_semantics.1 ("/x/build".toList) ("build".toList)
    (by decide)).mpr ⟨"/x/".toList, by decide⟩

/-- Python `os.path.basename` (POSIX): the part of the path after its last `/`
(empty when the path ends in `/`). -/
def basename (p : List Char) : List Char :=
  (p.reverse.takeWhile (fun c => !(c == '/'))).reverse

/-- Function `match_override(file_path, overrides)` from colly.py: first-match-wins
scan of the ordered override list, each pattern tested with
`fnmatch.fnmatch` against `os.path.basename(file_path)`. -/
def match_override (file_path : List Char)
    (overrides : List (List Char × Nat)) : Option Nat :=
  match overrides with
  | [] => none
  | (pattern, length) :: rest =>
    if glob_match pattern (basename file_path) then some length
    else match_override file_path rest

/-- The truncation step of `process_single_file` (colly.py lines 339-343):
`trunc_length = override_max_length if override_max_length is not None else
truncation_length`, then truncate only when `trunc_length is not None`. -/
def process_single_file_truncation (content file_path : List Char)
    (truncate_flag : Bool) (truncation_length : Option Nat)
    (overrides : List (List Char × Nat)) : List Char :=
  if truncate_flag then
    match (match match_override file_path overrides with
           | some l => some l
           | none => truncation_length) with
    | some l => truncate_content content l
    | none => content
  else content

theorem takeWhile_append_cons_neg (q : Char → Bool) :
    ∀ (xs : List Char) (y : Char) (ys : List Char), q y = false →
      (xs ++ y :: ys).takeWhile q = xs.takeWhile q := by
  intro xs
  induction xs with
  | nil =>
    intro y ys hy
    simp [List.takeWhile_cons, hy]
  | cons a as ih =>
    intro y ys hy
    rw [List.cons_append, List.takeWhile_cons, List.takeWhile_cons]
    by_cases ha : q a
    · rw [if_pos ha, if_pos ha, ih y ys hy]
    · rw [if_neg ha, if_neg ha]

theorem basename_append_slash (dir p : List Char) :
    basename (dir ++ '/' :: p) = basename p := by
  unfold basename
  rw [List.reverse_append, List.reverse_cons,
    List.append_assoc, List.singleton_append,
    takeWhile_append_cons_neg _ p.reverse '/' dir.reverse (by simp)]

theorem match_override_congr (p1 p2 : List Char)
    (h : basename p1 = basename p2) :
    ∀ overrides : List (List Char × Nat),
      match_override p1 overrides = match_override p2 overrides := by
  intro overrides
  induction overrides with
  | nil => rfl
  | cons q rest ih =>
    obtain ⟨pattern, length⟩ := q
    unfold match_override
    rw [h, ih]

/-- C5: override resolution is first-match-wins over the ordered override
list and sees only the file's base name (leading directory components never
affect it); when truncation is enabled, a matching override's width entirely
replaces the global width — including a `None` global width — and with no
matching override and no global width the content is left untruncated. -/
theorem match_override_spec :
    (∀ (dir p : List Char) (overrides : List (List Char × Nat)),
      match_override (dir ++ '/' :: p) overrides = match_override p overrides) ∧
    (∀ (path : List Char) (pre post : List (List Char × Nat))
        (pat : List Char) (l : Nat),
      (∀ q ∈ pre, glob_match q.1 (basename path) = false) →
      glob_match pat (basename path) = true →
      match_override path (pre ++ (pat, l) :: post) = some l) ∧
    (∀ (content path : List Char) (overrides : List (List Char × Nat))
        (truncation_length : Option Nat) (l : Nat),
      match_override path overrides = some l →
      process_single_file_truncation content path true truncation_length overrides
        = truncate_content content l) ∧
    (∀ (content path : List Char) (overrides : List (List Char × Nat)),
      match_override path overrides = none →
      process_single_file_truncation content path true none overrides = content) := by
  refine ⟨?_, ?_, ?_, ?_⟩
  · intro dir p overrides
    exact match_override_congr _ _ (basename_append_slash dir p) overrides
  · intro path pre post pat l hpre hpat
    induction pre with
    | nil =>
      rw [List.nil_append]
      unfold match_override
      rw [if_pos hpat]
    | cons q rest ih =>
      obtain ⟨qpat, qlen⟩ := q
      rw [List.cons_append]
      unfold match_override
      rw [if_neg (by simp [hpre (qpat, qlen) (List.mem_cons_self _ _)])]
      exact ih (fun r hr => hpre r (List.mem_cons_of_mem _ hr))
  · intro content path overrides truncation_length l h
    unfold process_single_file_truncation
    rw [if_pos rfl, h]
  · intro content path overrides h
    unfold process_single_file_truncation
    rw [if_pos rfl, h]

/-- Witness for C5: with override list `[("*.py", 3)]`, no global width, and
file `/a/app.py`, the content is truncated at width 3. -/
theorem match_override_spec_witness :
    process_single_file_truncation ("hello world".toList) ("/a/app.py".toList)
        true none [("*.py".toList, 3)]
      = truncate_content ("hello world".toList) 3 :=
  match_override_spec.2.2.1 ("hello world".toList) ("/a/app.py".toList)
    [("*.py".toList, 3)] none 3 (by decide)

/-- The chunk slicing of `copy_to_clipboard` (colly.py line 178):
`[text[i:i + max_clip_length] for i in range(0, len(text), max_clip_length)]`.
Written with explicit fuel so the recursion is structural; when the chunk
length is positive every step consumes at least one character, so
`text.length` fuel always suffices.  (Python `range` raises for step 0;
`copy_to_clipboard` is only reachable with the positive `--max-clip-length`,
default 500000.) -/
def chunksFuel (m : Nat) : Nat → List Char → List (List Char)
  | _, [] => []
  | 0, _ :: _ => []
  | fuel + 1, c :: rest =>
    (c :: rest).take m :: chunksFuel m fuel ((c :: rest).drop m)

def make_chunks (text : List Char) (m : Nat) : List (List Char) :=
  chunksFuel m text.length text

/-- The marker line prepended to chunk `idx` of `num_chunks` by
`copy_to_clipboard` (colly.py lines 181-186). -/
def section_comment (idx num_chunks : Nat) : List Char :=
  ("# Clipboard section ".toList) ++ (Nat.repr idx).toList
    ++ (" of ".toList) ++ (Nat.repr num_chunks).toList
    ++ ((if idx < num_chunks then
          ". It is imperative not to respond until all sections have been provided."
        else
          ". All sections have been provided. You may proceed with the response.").toList)
    ++ ['\n']

/-- The annotated chunk sequence emitted by `copy_to_clipboard`:
`enumerate(chunks, 1)` pairs each chunk with its 1-based index, and each
chunk is sent as `comment + chunk`. -/
def clipboard_sections (text : List Char) (m : Nat) : List (List Char) :=
  let chunks := make_chunks text m
  let num_chunks := chunks.length
  ((List.range' 1 num_chunks).zip chunks).map
    (fun ic => section_comment ic.1 num_chunks ++ ic.2)

theorem chunksFuel_join (m : Nat) (hm : 0 < m) :
    ∀ (fuel : Nat) (text : List Char), text.length ≤ fuel →
      (chunksFuel m fuel text).foldr (· ++ ·) [] = text := by
  intro fuel
  induction fuel with
  | zero =>
    intro text hlen
    have : text = [] := List.eq_nil_of_length_eq_zero (Nat.le_zero.mp hlen)
    subst this
    rfl
  | succ fuel ih =>
    intro text hlen
    cases text with
    | nil => rfl
    | cons c rest =>
      simp only [chunksFuel, List.foldr_cons]
      rw [ih ((c :: rest).drop m) (by simp at hlen ⊢; omega)]
      exact List.take_append_drop m (c :: rest)

theorem chunksFuel_length_le (m : Nat) :
    ∀ (fuel : Nat) (text : List Char),
      ∀ c ∈ chunksFuel m fuel text, c.length ≤ m := by
  intro fuel
  induction fuel with
  | zero =>
    intro text c hc
    cases text with
    | nil => simp [chunksFuel] at hc
    | cons a rest => simp [chunksFuel] at hc
  | succ fuel ih =>
    intro text c hc
    cases text with
    | nil => simp [chunksFuel] at hc
    | cons a rest =>
      simp only [chunksFuel, List.mem_cons] at hc
      rcases hc with rfl | hc
      · rw [List.length_take]
        omega
      · exact ih _ c hc

theorem sections_get_aux (total : Nat) :
    ∀ (cs : List (List Char)) (s k : Nat)
      (hk : k < (((List.range' s cs.length).zip cs).map
        (fun ic => section_comment ic.1 total ++ ic.2)).length),
      (((List.range' s cs.length).zip cs).map
        (fun ic => section_comment ic.1 total ++ ic.2))[k]
        = section_comment (s + k) total ++ cs.getD k [] := by
  intro cs
  induction cs with
  | nil => intro s k hk; simp at hk
  | cons c cs ih =>
    intro s k hk
    simp only [List.length_cons, List.range'_succ, List.zip_cons_cons,
      List.map_cons] at hk ⊢
    cases k with
    | zero => simp
    | succ k =>
      simp only [List.getElem_cons_succ]
      have hk' : k < (((List.range' (s + 1) cs.length).zip cs).map
          (fun ic => section_comment ic.1 total ++ ic.2)).length := by
        simp only [List.length_map, List.length_zip, List.length_range'] at hk ⊢
        omega
      rw [ih (s + 1) k hk']
      have harith : s + 1 + k = s + (k + 1) := by omega
      rw [harith]
      rfl

/-- C6: chunking splits the document into contiguous slices of at most
`max_chunk_length` characters, in order: the chunk bodies concatenate back
to the original text, each annotated section is the marker for its 1-based
index (with the total count) followed by the chunk body, and the
25-character document `"abcdefghijklmnopqrstuvwxy"` with chunk length 10
yields exactly 3 chunks of body lengths 10, 10 and 5. -/
theorem copy_to_clipboard_chunking :
    (∀ (text : List Char) (m : Nat), 0 < m →
      (make_chunks text m).foldr (· ++ ·) [] = text ∧
      (∀ c ∈ make_chunks text m, c.length ≤ m) ∧
      (clipboard_sections text m).length = (make_chunks text m).length ∧
      (∀ (k : Nat) (hk : k < (clipboard_sections text m).length),
        (clipboard_sections text m)[k]
          = section_comment (k + 1) (make_chunks text m).length
            ++ (make_chunks text m).getD k [])) ∧
    (make_chunks ("abcdefghijklmnopqrstuvwxy".toList) 10).map List.length
      = [10, 10, 5] ∧
    (clipboard_sections ("abcdefghijklmnopqrstuvwxy".toList) 10).length = 3 := by
  refine ⟨?_, by decide, by decide⟩
  intro text m hm
  refine ⟨chunksFuel_join m hm text.length text (le_refl _),
    chunksFuel_length_le m text.length text, ?_, ?_⟩
  · unfold clipboard_sections
    simp [List.length_zip]
  · intro k hk
    unfold clipboard_sections at hk ⊢
    simp only at hk ⊢
    rw [sections_get_aux (make_chunks text m).length (make_chunks text m) 1 k hk]
    have : 1 + k = k + 1 := by omega
    rw [this]

/-- Witness for C6: the general chunking property applied to the concrete
25-character document with chunk length 10 reconstructs the document. -/
theorem copy_to_clipboard_chunking_witness :
    (make_chunks ("abcdefghijklmnopqrstuvwxy".toList) 10).foldr (· ++ ·) []
      = "abcdefghijklmnopqrstuvwxy".toList :=
  (copy_to_clipboard_chunking.1 ("abcdefghijklmnopqrstuvwxy".toList) 10
    (by decide)).1

/-- Python `override.split(':', 1)` succeeding with two parts: the text
before the FIRST `:` and everything after it.  `none` when the string has no
`:`, in which case the tuple unpacking in `parse_override_max_length` raises
`ValueError` and the entry is dropped. -/
def split_first_colon : List Char → Option (List Char × List Char)
  | [] => none
  | c :: rest =>
    if c = ':' then some ([], rest)
    else (split_first_colon rest).map (fun pr => (c :: pr.1, pr.2))

/-- Decimal value of a digit string (most significant digit first). -/
def decimal_value (ds : List Char) : Nat :=
  ds.foldl (fun acc c => acc * 10 + (c.toNat - '0'.toNat)) 0

/-- Python whitespace as stripped by `int()`: space, tab, newline, carriage
return, vertical tab, form feed. -/
def pySpace (c : Char) : Bool :=
  c == ' ' || c == '\t' || c == '\n' || c == '\r' || c == '\x0B' || c == '\x0C'

/-- Valid continuation of a CPython decimal digit string after a digit:
further digits, with single underscores allowed only between digits
(`int("1_0") = 10`, while `"1__0"`, `"1_"` raise). -/
def digits_tail : List Char → Bool
  | [] => true
  | c :: rest =>
    if c = '_' then
      match rest with
      | [] => false
      | d :: rest2 => d.isDigit && digits_tail rest2
    else
      c.isDigit && digits_tail rest

/-- A CPython decimal digit string: non-empty, starts with a digit,
underscore grouping per `digits_tail`. -/
def valid_py_digits : List Char → Bool
  | [] => false
  | d :: rest => d.isDigit && digits_tail rest

/-- Value of a valid CPython decimal digit string (underscores are
grouping only and do not contribute), else `none`. -/
def digits_value (ds : List Char) : Option Int :=
  if valid_py_digits ds = true then
    some (decimal_value (ds.filter (fun c => !(c == '_'))))
  else none

/-- Python `int(s)` as applied to the width part of an override
specification: optional surrounding whitespace, an optional sign, then a
non-empty digit run with optional single-underscore grouping between digit
groups — CPython's decimal grammar for `int()`.  (CPython additionally
accepts Unicode whitespace and non-ASCII decimal digits; no claim involves
either.) -/
def pyInt (s : List Char) : Option Int :=
  let t := ((s.dropWhile pySpace).reverse.dropWhile pySpace).reverse
  match t with
  | [] => none
  | c :: rest =>
    if c = '+' then digits_value rest
    else if c = '-' then (digits_value rest).map (fun n => -n)
    else digits_value (c :: rest)

/-- One iteration of the `parse_override_max_length` loop (colly.py lines
148-156): split at the first `:` (no `:` raises and drops the entry), parse
the width as an int (failure drops the entry), require it strictly positive
(`length <= 0` raises and drops the entry). -/
def parse_override_entry (override : List Char) : Option (List Char × Int) :=
  match split_first_colon override with
  | none => none
  | some (pattern, lengthStr) =>
    match pyInt lengthStr with
    | none => none
    | some length => if length ≤ 0 then none else some (pattern, length)

/-- Function `parse_override_max_length(overrides)` from colly.py: the well-formed
entries, parsed, in input order; malformed entries are dropped and never
abort the parse. -/
def parse_override_max_length (overrides : List (List Char)) :
    List (List Char × Int) :=
  overrides.filterMap parse_override_entry

theorem split_first_colon_no_colon :
    ∀ s : List Char, ':' ∉ s → split_first_colon s = none := by
  intro s
  induction s with
  | nil => intro _; rfl
  | cons c rest ih =>
    intro hnot
    have hc : c ≠ ':' := fun h => hnot (show ':' ∈ c :: rest by
      rw [← h]; exact List.mem_cons_self c rest)
    unfold split_first_colon
    rw [if_neg hc, ih (fun h => hnot (List.mem_cons_of_mem c h))]
    rfl

theorem split_first_colon_append :
    ∀ (pattern : List Char), ':' ∉ pattern → ∀ ds : List Char,
      split_first_colon (pattern ++ ':' :: ds) = some (pattern, ds) := by
  intro pattern
  induction pattern with
  | nil =>
    intro _ ds
    unfold split_first_colon
    rw [List.nil_append]
    simp
  | cons c rest ih =>
    intro hnot ds
    have hc : c ≠ ':' := fun h => hnot (show ':' ∈ c :: rest by
      rw [← h]; exact List.mem_cons_self c rest)
    rw [List.cons_append]
    unfold split_first_colon
    rw [if_neg hc, ih (fun h => hnot (List.mem_cons_of_mem c h)) ds]
    rfl

theorem digit_not_pySpace {c : Char} (hd : c.isDigit = true) :
    pySpace c = false := by
  have hs : c ≠ ' ' := by rintro rfl; exact absurd hd (by decide)
  have ht : c ≠ '\t' := by rintro rfl; exact absurd hd (by decide)
  have hn : c ≠ '\n' := by rintro rfl; exact absurd hd (by decide)
  have hr : c ≠ '\r' := by rintro rfl; exact absurd hd (by decide)
  have hv : c ≠ '\x0B' := by rintro rfl; exact absurd hd (by decide)
  have hf : c ≠ '\x0C' := by rintro rfl; exact absurd hd (by decide)
  simp [pySpace, hs, ht, hn, hr, hv, hf]

theorem digits_tail_of_digits :
    ∀ ds : List Char, (∀ c ∈ ds, c.isDigit = true) → digits_tail ds = true := by
  intro ds
  induction ds with
  | nil => intro _; rfl
  | cons c rest ih =>
    intro h
    have hc := h c (List.mem_cons_self c rest)
    have hcu : c ≠ '_' := by rintro rfl; exact absurd hc (by decide)
    unfold digits_tail
    rw [if_neg hcu, hc, ih (fun a ha => h a (List.mem_cons_of_mem c ha))]
    rfl

theorem digits_value_of_digits (ds : List Char) (hne : ds ≠ [])
    (hdig : ∀ c ∈ ds, c.isDigit = true) :
    digits_value ds = some ((decimal_value ds : Nat) : Int) := by
  have hvalid : valid_py_digits ds = true := by
    cases ds with
    | nil => exact absurd rfl hne
    | cons d rest =>
      show (d.isDigit && digits_tail rest) = true
      rw [hdig d (List.mem_cons_self d rest),
        digits_tail_of_digits rest (fun a ha => hdig a (List.mem_cons_of_mem d ha))]
      rfl
  have hfilter : ds.filter (fun c => !(c == '_')) = ds := by
    apply List.filter_eq_self.mpr
    intro a ha
    have hau : a ≠ '_' := by
      rintro rfl; exact absurd (hdig '_' ha) (by decide)
    simp [hau]
  unfold digits_value
  rw [if_pos hvalid, hfilter]

theorem pyInt_digits (ds : List Char) (hne : ds ≠ [])
    (hdig : ∀ c ∈ ds, c.isDigit = true) :
    pyInt ds = some ((decimal_value ds : Nat) : Int) := by
  have hnospace : ∀ c ∈ ds, pySpace c = false :=
    fun c hc => digit_not_pySpace (hdig c hc)
  have h1 : ds.dropWhile pySpace = ds := by
    cases ds with
    | nil => rfl
    | cons d rest =>
      rw [List.dropWhile_cons,
        if_neg (by rw [hnospace d (List.mem_cons_self d rest)]; simp)]
  have h2 : ds.reverse.dropWhile pySpace = ds.reverse := by
    cases hrev : ds.reverse with
    | nil => rfl
    | cons e es =>
      have he : e ∈ ds := by
        rw [← List.mem_reverse, hrev]
        exact List.mem_cons_self e es
      rw [List.dropWhile_cons, if_neg (by rw [hnospace e he]; simp)]
  unfold pyInt
  rw [h1, h2, List.reverse_reverse]
  cases ds with
  | nil => exact absurd rfl hne
  | cons d rest =>
    have hd : d.isDigit = true := hdig d (List.mem_cons_self d rest)
    have hplus : d ≠ '+' := by
      intro h
      rw [h] at hd
      simp [Char.isDigit] at hd
    have hminus : d ≠ '-' := by
      intro h
      rw [h] at hd
      simp [Char.isDigit] at hd
    simp only [if_neg hplus, if_neg hminus]
    exact digits_value_of_digits (d :: rest) hne hdig

/-- C9: override parsing keeps exactly the well-formed entries, in input
order, and never fails as a whole: every produced width is strictly
positive; each entry contributes independently of the others; an entry with
no `:` is dropped; an entry whose width part fails integer parsing
(non-integer width) is dropped; an entry whose integer width is
non-positive is dropped; an entry whose width parses to a positive integer
is kept as `(PATTERN, width)` — in particular `PATTERN:DIGITS` with a
positive value is kept as `(PATTERN, value)`. -/
theorem parse_override_max_length_spec :
    (∀ (overrides : List (List Char)),
      ∀ pw ∈ parse_override_max_length overrides, 0 < pw.2) ∧
    (∀ (pre : List (List Char)) (s : List Char) (post : List (List Char)),
      parse_override_max_length (pre ++ s :: post)
        = parse_override_max_length pre ++ parse_override_max_length [s]
            ++ parse_override_max_length post) ∧
    (∀ s : List Char, ':' ∉ s → parse_override_entry s = none) ∧
    (∀ (pattern ds : List Char), ':' ∉ pattern →
      pyInt ds = none →
      parse_override_entry (pattern ++ ':' :: ds) = none) ∧
    (∀ (pattern ds : List Char) (n : Int), ':' ∉ pattern →
      pyInt ds = some n → n ≤ 0 →
      parse_override_entry (pattern ++ ':' :: ds) = none) ∧
    (∀ (pattern ds : List Char) (n : Int), ':' ∉ pattern →
      pyInt ds = some n → 0 < n →
      parse_override_entry (pattern ++ ':' :: ds) = some (pattern, n)) ∧
    (∀ (pattern ds : List Char), ':' ∉ pattern → ds ≠ [] →
      (∀ c ∈ ds, c.isDigit = true) → 0 < decimal_value ds →
      parse_override_entry (pattern ++ ':' :: ds)
        = some (pattern, ((decimal_value ds : Nat) : Int))) := by
  refine ⟨?_, ?_, ?_, ?_, ?_, ?_, ?_⟩
  · intro overrides pw hpw
    obtain ⟨s, _, hs⟩ := List.mem_filterMap.mp hpw
    unfold parse_override_entry at hs
    split at hs
    · exact absurd hs (by simp)
    · split at hs
      · exact absurd hs (by simp)
      · split at hs
        · exact absurd hs (by simp)
        · rename_i length h3
          injection hs with hs
          rw [← hs]
          simp only
          omega
  · intro pre s post
    unfold parse_override_max_length
    rw [show pre ++ s :: post = pre ++ [s] ++ post by simp,
      List.filterMap_append, List.filterMap_append]
  · intro s hs
    unfold parse_override_entry
    rw [split_first_colon_no_colon s hs]
  · intro pattern ds hpat hint
    unfold parse_override_entry
    simp only [split_first_colon_append pattern hpat ds, hint]
  · intro pattern ds n hpat hint hn
    unfold parse_override_entry
    simp only [split_first_colon_append pattern hpat ds, hint]
    rw [if_pos hn]
  · intro pattern ds n hpat hint hn
    unfold parse_override_entry
    simp only [split_first_colon_append pattern hpat ds, hint]
    rw [if_neg (by omega)]
  · intro pattern ds hpat hne hdig hpos
    unfold parse_override_entry
    simp only [split_first_colon_append pattern hpat ds,
      pyInt_digits ds hne hdig]
    rw [if_neg (by omega)]

/-- Witness for C9 at concrete inputs covering every category: the
well-formed `"*.py:3"` is kept as `("*.py", 3)`; the non-integer width
`"*.py:abc"` is dropped; the underscore-grouped `"*.py:1_0"` (which CPython
parses as 10) is kept as `("*.py", 10)`; the non-positive `"*.py:0"` is
dropped. -/
theorem parse_override_max_length_spec_witness :
    parse_override_entry ("*.py:3".toList) = some ("*.py".toList, (3 : Int)) ∧
    parse_override_entry ("*.py:abc".toList) = none ∧
    parse_override_entry ("*.py:1_0".toList) = some ("*.py".toList, (10 : Int)) ∧
    parse_override_entry ("*.py:0".toList) = none := by
  refine ⟨?_, ?_, ?_, ?_⟩
  · exact parse_override_max_length_spec.2.2.2.2.2.2 ("*.py".toList)
      ("3".toList) (by decide) (by decide) (by decide) (by decide)
  · exact parse_override_max_length_spec.2.2.2.1 ("*.py".toList)
      ("abc".toList) (by decide) (by decide)
  · exact parse_override_max_length_spec.2.2.2.2.2.1 ("*.py".toList)
      ("1_0".toList) 10 (by decide) (by decide) (by decide)
  · exact parse_override_max_length_spec.2.2.2.2.1 ("*.py".toList)
      ("0".toList) 0 (by decide) (by decide) (by decide)

end Colly
